import Mathlib

/-!
Verification development for the EnhancePPTX rendering core.

The Python source is shallowly embedded: machine/floating arithmetic is
modelled over `ℚ` (exact arithmetic), Python `int` values over `ℤ`,
Python `round` (banker's rounding, round-half-to-even) as `pyRound`, and
Python `int(...)` truncation toward zero as `truncQ`.
-/

/-- Python `round` on a rational value: round half to even (banker's
rounding), as used by `int(round(...))` in
`tools/renderers/decompose_boxes.py`. -/
def pyRound (q : ℚ) : ℤ :=
  let f := ⌊q⌋
  let r := q - (f : ℚ)
  if r < 1/2 then f
  else if 1/2 < r then f + 1
  else if f % 2 = 0 then f else f + 1

/-- Python `int(...)` applied to a real value: truncation toward zero. -/
def truncQ (q : ℚ) : ℤ := if 0 ≤ q then ⌊q⌋ else -⌊-q⌋

/-! ## `tools/utils.py` : percent-to-EMU conversion -/

/-- `pct_to_emu(pct, total_emu)` from `tools/utils.py`:
`return int(total_emu * (pct / 100.0))`. -/
def pct_to_emu (pct total : ℚ) : ℤ := truncQ (total * (pct / 100))

/-- A percent box `{x, y, w, h}` as consumed by `parse_geom`. -/
structure PctBox where
  x : ℚ
  y : ℚ
  w : ℚ
  h : ℚ

/-- An absolute geometry box `{left, top, width, height}` in EMU. -/
structure Geom where
  left : ℤ
  top : ℤ
  width : ℤ
  height : ℤ

/-- `parse_geom(pos_pct, prs)` from `tools/utils.py`: converts each of the
four percent fields against the corresponding slide dimension. -/
def parse_geom (pos : PctBox) (slideWidth slideHeight : ℚ) : Geom :=
  { left := pct_to_emu pos.x slideWidth
    top := pct_to_emu pos.y slideHeight
    width := pct_to_emu pos.w slideWidth
    height := pct_to_emu pos.h slideHeight }

/-! ## `tools/renderers/decompose_boxes.py` : weighted partitioner -/

/-- A node of the box-decomposition tree. The renderer reads
`ch.get("weight", 1.0)` (an optional numeric weight) and
`node.get("children")`. -/
inductive DNode where
  | mk (name : String) (weight : Option ℚ) (children : List DNode)

/-- Weight of a node as read by the renderer: `float(ch.get("weight", 1.0))`. -/
def DNode.getWeight : DNode → ℚ
  | .mk _ w _ => w.getD 1

/-- Children list of a node: `node.get("children") or []`. -/
def DNode.children : DNode → List DNode
  | .mk _ _ cs => cs

/-- `total_w = sum(wi for wi in weights if wi > 0) or float(n)`: the sum of
the strictly positive weights, falling back to `n` when that sum is `0.0`
(Python `or` on a falsy float). -/
def totalWeight (ws : List ℚ) (n : ℕ) : ℚ :=
  let s := (ws.filter (fun w => 0 < w)).sum
  if s = 0 then (n : ℚ) else s

/-- `usable = h - gap_y * (n - 1)`, replaced by `h` when it would be
negative (`decompose_boxes.py`, the `usable < 0` branch). -/
def usableExtent (h gap : ℤ) (n : ℕ) : ℤ :=
  if h - gap * ((n : ℤ) - 1) < 0 then h else h - gap * ((n : ℤ) - 1)

/-- `local_gap`: the per-level sibling gap, suppressed to `0` when the
usable extent would be negative. -/
def localGap (h gap : ℤ) (n : ℕ) : ℤ :=
  if h - gap * ((n : ℤ) - 1) < 0 then 0 else gap

/-- `frac = (wi / total_w) if total_w > 0 else (1.0 / n)` with
`wi = max(weights[i], 0.0)`. -/
def fracOf (w total : ℚ) (n : ℕ) : ℚ :=
  if 0 < total then max w 0 / total else 1 / (n : ℚ)

/-- The sibling-height loop of `layout` (and of the top-level root-list
driver): every sibling but the last receives `int(round(usable * frac))`,
and the last receives the remaining extent `y + h - cursor_y`, i.e. the
running remainder `rem` (initially `h`) after subtracting each allocated
height and one local gap per allocated sibling. -/
def heightsLoop (ws : List ℚ) (total : ℚ) (n : ℕ) (usable g rem : ℤ) :
    List ℤ :=
  match ws with
  | [] => []
  | [_] => [rem]
  | w :: rest =>
      let hi := pyRound ((usable : ℚ) * fracOf w total n)
      hi :: heightsLoop rest total n usable g (rem - hi - g)

/-- Heights allocated to one sibling level by `decompose_boxes.py`, given
the siblings' raw weights `ws`, the parent extent `h` and the configured
gap.  Both the recursive `layout` and the top-level root-list form compute
sibling heights exactly this way. -/
def childHeights (ws : List ℚ) (h gap : ℤ) : List ℤ :=
  heightsLoop ws (totalWeight ws ws.length) ws.length
    (usableExtent h gap ws.length) (localGap h gap ws.length) h

/-- A box recorded by `layout` into the `boxes` list:
`(node, col, x, y, w, h)` with the node itself elided. -/
structure LBox where
  col : ℕ
  x : ℤ
  y : ℤ
  w : ℤ
  h : ℤ

/-- The geometry closed over by `layout` in `decompose_boxes.py`:
the content band (`content_top`, `content_h`), the sibling gap `gap_y`,
the column count and the column-position/width functions `col_x` and
`col_width` (closures over `geom` and `col_widths` in the source). -/
structure LayoutCfg where
  contentTop : ℤ
  contentH : ℤ
  gapY : ℤ
  cols : ℕ
  colX : ℕ → ℤ
  colW : ℕ → ℤ

mutual

/-- The recursive `layout(node, col, x, y, w, h)` of `decompose_boxes.py`,
returning the recorded boxes.  It clamps the node's box into the content
band (`y = max(y, content_top)`; `h = min(h, bottom - y)`), records it,
then distributes the clamped height among the children via the
weighted-partitioning loop (`childHeights`). -/
def layoutNode (cfg : LayoutCfg) : DNode → ℕ → ℤ → ℤ → ℤ → ℤ → List LBox
  | node, col, x, y, w, h =>
    let y' := max y cfg.contentTop
    let h' := min h (cfg.contentTop + cfg.contentH - y')
    let b : LBox := ⟨col, x, y', w, h'⟩
    match node with
    | .mk _ _ [] => [b]
    | .mk _ _ (c0 :: cs) =>
      let chs := c0 :: cs
      let ws := chs.map DNode.getWeight
      let hs := childHeights ws h' cfg.gapY
      let lg := localGap h' cfg.gapY chs.length
      let ccol := min (col + 1) (cfg.cols - 1)
      b :: layoutSibs cfg chs hs ccol y' lg

/-- The `for i, ch in enumerate(children)` loop of `layout`: lays out each
child at the running cursor with its allocated height, advancing the
cursor by the height plus the local gap (no gap after the last child). -/
def layoutSibs (cfg : LayoutCfg) : List DNode → List ℤ → ℕ → ℤ → ℤ → List LBox
  | [], _, _, _, _ => []
  | _ :: _, [], _, _, _ => []
  | ch :: rest, hh :: hrest, ccol, cy, lg =>
    layoutNode cfg ch ccol (cfg.colX ccol) cy (cfg.colW ccol) hh
      ++ layoutSibs cfg rest hrest ccol
          (cy + hh + (if rest.isEmpty then 0 else lg)) lg

end

/-- The top-level root-list form of `decompose_boxes.py` (the
`isinstance(root_data, list)` branch): the roots are laid out as siblings
of the full content band in column 0, with heights from the same
weighted-partitioning loop. -/
def layoutRoots (cfg : LayoutCfg) (roots : List DNode) : List LBox :=
  match roots with
  | [] => []
  | r0 :: rs =>
    let items := r0 :: rs
    let ws := items.map DNode.getWeight
    let hs := childHeights ws cfg.contentH cfg.gapY
    let lg := localGap cfg.contentH cfg.gapY items.length
    layoutSibs cfg items hs 0 cfg.contentTop lg

/-! ## `tools/renderers/component_diagram.py` : connector router -/

/-- An absolute node box `{x, y, w, h}` as produced by `_rel_to_abs`. -/
structure NodeBox where
  x : ℚ
  y : ℚ
  w : ℚ
  h : ℚ

/-- Routing style: `MSO_CONNECTOR.STRAIGHT` or `MSO_CONNECTOR.ELBOW`. -/
inductive ConnStyle where
  | straight
  | elbow
deriving DecidableEq

/-- Result of `_calc_conn_points_and_sites`: start/end points, the
`(begin_site, end_site)` pair (0=top, 1=left, 2=bottom, 3=right) and the
connector style. -/
structure RouteRes where
  startP : ℚ × ℚ
  endP : ℚ × ℚ
  sites : ℕ × ℕ
  style : ConnStyle
deriving DecidableEq

/-- `_calc_conn_points_and_sites(from_g, to_g, margin)` from
`component_diagram.py`: the ordered decision cascade.  Rule 1 fires for
nearly-horizontal, horizontally separated pairs (straight); rule 2 for
nearly-vertical, vertically separated pairs (straight); otherwise rule 3
routes an elbow between the two centers, choosing the site pair by the
dominant axis. -/
def calcConn (f t : NodeBox) (margin : ℚ) : RouteRes :=
  let fLeft := f.x
  let fRight := f.x + f.w
  let fTop := f.y
  let fBottom := f.y + f.h
  let tLeft := t.x
  let tRight := t.x + t.w
  let tTop := t.y
  let tBottom := t.y + t.h
  let fcx := f.x + f.w / 2
  let fcy := f.y + f.h / 2
  let tcx := t.x + t.w / 2
  let tcy := t.y + t.h / 2
  let dx := |tcx - fcx|
  let dy := |tcy - fcy|
  let isHorizontalAligned := dy < (f.h + t.h) / 4
  let isVerticalAligned := dx < (f.w + t.w) / 4
  if isHorizontalAligned ∧ (fRight ≤ tLeft ∨ tRight ≤ fLeft) then
    if fRight ≤ tLeft then
      ⟨(fRight + margin, fcy), (tLeft - margin, tcy), (3, 1), .straight⟩
    else
      ⟨(fLeft - margin, fcy), (tRight + margin, tcy), (1, 3), .straight⟩
  else if isVerticalAligned ∧ (fBottom ≤ tTop ∨ tBottom ≤ fTop) then
    if fBottom ≤ tTop then
      ⟨(fcx, fBottom + margin), (tcx, tTop - margin), (2, 0), .straight⟩
    else
      ⟨(fcx, fTop - margin), (tcx, tBottom + margin), (0, 2), .straight⟩
  else if dy ≤ dx then
    if fcx < tcx then
      ⟨(fcx, fcy), (tcx, tcy), (3, 1), .elbow⟩
    else
      ⟨(fcx, fcy), (tcx, tcy), (1, 3), .elbow⟩
  else
    if fcy < tcy then
      ⟨(fcx, fcy), (tcx, tcy), (2, 0), .elbow⟩
    else
      ⟨(fcx, fcy), (tcx, tcy), (0, 2), .elbow⟩

/-! ## `render.py` : per-slide render orchestration

A component as consumed by the orchestrator loop.  The external pydantic
schema and renderer collaborators are abstracted as oracles: `schemaFound`
(`load_schema` returns a class), `validates` (`schema_class(**raw_data)`
does not raise), `rendererFound` (`load_renderer` succeeds), `legacyFound`
(`load_tool` succeeds) and `renderOk` (the dispatched geometry resolution
and `tool.render` call raise no exception). -/
structure Comp where
  tool : Option String
  id : Option String
  zIndex : ℤ
  schemaFound : Bool
  validates : Bool
  rendererFound : Bool
  legacyFound : Bool
  renderOk : Bool
deriving DecidableEq

/-- The synthesized auto-title component of `render_presentation`:
`{tool: "slide_title", id: "auto_title", anchor: "title", z_index: -1000,
data: {title: slide_title}}`.  Its collaborators exist in the repository
(`tools/schemas/slide_title.py`, whose `Schema` requires exactly a string
`title`, and `tools/renderers/slide_title.py`), so its oracle fields are
true. -/
def autoTitleComp : Comp :=
  { tool := some "slide_title", id := some "auto_title", zIndex := -1000,
    schemaFound := true, validates := true, rendererFound := true,
    legacyFound := false, renderOk := true }

/-- Auto-title injection of `render_presentation`: if the slide declares a
(truthy) title and no component's tool is `"slide_title"`, prepend the
synthesized component; otherwise leave the list unchanged. -/
def injectTitle (title : Option String) (components : List Comp) :
    List Comp :=
  match title with
  | none => components
  | some t =>
      if t = "" then components
      else if components.any (fun c => decide (c.tool = some "slide_title"))
      then components
      else autoTitleComp :: components

/-- Stable insertion of a component into an already-sorted suffix: the
inserted component precedes every later component with an equal z-index,
because it occurred earlier in the original list. -/
def insertByZ (c : Comp) : List Comp → List Comp
  | [] => [c]
  | d :: ds => if c.zIndex ≤ d.zIndex then c :: d :: ds else d :: insertByZ c ds

/-- `components = sorted(components, key=lambda c: c.get("z_index", 0))`:
Python `sorted` is a stable ascending sort, whose output is uniquely
determined by the key order and stability; it is modelled by stable
insertion sort. -/
def sortComponents : List Comp → List Comp
  | [] => []
  | c :: cs => insertByZ c (sortComponents cs)

/-- `comp_id = comp.get("id") or f"{tool_name}_{slide_idx}_{comp_idx}"`:
a missing (or falsy, i.e. empty) id falls back to the synthesized
default. -/
def compId (slideIdx cIdx : ℕ) (c : Comp) : String :=
  match c.id with
  | some s =>
      if s = "" then
        (c.tool.getD "") ++ "_" ++ toString slideIdx ++ "_" ++ toString cIdx
      else s
  | none =>
      (c.tool.getD "") ++ "_" ++ toString slideIdx ++ "_" ++ toString cIdx

/-- Python dict assignment `registry["groups"][comp_id] = entry`: replace
the value in place when the key exists, else append. -/
def updateOrAppend (reg : List (String × String)) (k v : String) :
    List (String × String) :=
  if reg.any (fun e => decide (e.1 = k)) then
    reg.map (fun e => if e.1 = k then (k, v) else e)
  else reg ++ [(k, v)]

/-- Observable outcome of one slide's component loop: the registry
(comp_id keyed, holding the tool name of each entry) and the dispatch
trace (the components whose renderer was actually invoked). -/
structure RenderOut where
  registry : List (String × String)
  rendered : List Comp
deriving DecidableEq

/-- The component loop of `render_presentation` (`for comp_idx, comp in
enumerate(components, start=1)`), mirroring its control flow: a missing or
empty tool name skips; with a schema, a validation failure skips
(`continue`) before any dispatch; a missing renderer falls back to the
legacy tool or skips; without a schema, the legacy tool is tried or the
component is skipped; a dispatched component writes its registry entry
only when the render raised no exception. -/
def processLoop (slideIdx : ℕ) :
    List Comp → ℕ → List (String × String) → List Comp → RenderOut
  | [], _, reg, rnd => ⟨reg, rnd⟩
  | c :: rest, cIdx, reg, rnd =>
    if c.tool = none ∨ c.tool = some "" then
      processLoop slideIdx rest (cIdx + 1) reg rnd
    else
      let cid := compId slideIdx cIdx c
      let regAfter := if c.renderOk then
          updateOrAppend reg cid (c.tool.getD "") else reg
      if c.schemaFound then
        if c.validates then
          if c.rendererFound ∨ c.legacyFound then
            processLoop slideIdx rest (cIdx + 1) regAfter (rnd ++ [c])
          else processLoop slideIdx rest (cIdx + 1) reg rnd
        else processLoop slideIdx rest (cIdx + 1) reg rnd
      else
        if c.legacyFound then
          processLoop slideIdx rest (cIdx + 1) regAfter (rnd ++ [c])
        else processLoop slideIdx rest (cIdx + 1) reg rnd

/-- One slide's pass of the orchestrator: title injection, stable z-index
sort, then the component loop with `comp_idx` starting at 1. -/
def render_slide (slideIdx : ℕ) (title : Option String)
    (components : List Comp) : RenderOut :=
  processLoop slideIdx (sortComponents (injectTitle title components)) 1 [] []

/-- The spec's end-to-end scenario component `{tool:"valid", z_index:1}`:
schema present, validation succeeds, renderer present, render succeeds. -/
def validComp : Comp :=
  { tool := some "valid", id := none, zIndex := 1, schemaFound := true,
    validates := true, rendererFound := true, legacyFound := false,
    renderOk := true }

/-- The spec's end-to-end scenario component `{tool:"broken", z_index:0}`:
schema present but `schema_class(**raw_data)` raises. -/
def brokenComp : Comp :=
  { tool := some "broken", id := none, zIndex := 0, schemaFound := true,
    validates := false, rendererFound := true, legacyFound := false,
    renderOk := true }

/-! ## `render.py` : IR normalizer (`_normalize_ir`) -/

/-- A YAML/Python value as handled by `_normalize_ir`. -/
inductive Val where
  | vNone
  | vBool (b : Bool)
  | vInt (n : ℤ)
  | vStr (s : String)
  | vList (xs : List Val)
  | vDict (kvs : List (String × Val))

/-- First-match key lookup in a (Python-dict-modelling) association
list. -/
def lookupKey : List (String × Val) → String → Option Val
  | [], _ => none
  | (k, v) :: rest, key => if k = key then some v else lookupKey rest key

/-- Python `key in dict`. -/
def hasKey (d : List (String × Val)) (k : String) : Bool :=
  (lookupKey d k).isSome

/-- Python `dict.setdefault(k, v)`: inserts at the end only when the key
is absent. -/
def setdefault (d : List (String × Val)) (k : String) (v : Val) :
    List (String × Val) :=
  if hasKey d k then d else d ++ [(k, v)]

/-- Python `dict.get(k, default)`. -/
def getD (d : List (String × Val)) (k : String) (dflt : Val) : Val :=
  (lookupKey d k).getD dflt

/-- Is the value a Python dict. -/
def Val.isDict : Val → Bool
  | .vDict _ => true
  | _ => false

/-- Is the value a Python list. -/
def Val.isList : Val → Bool
  | .vList _ => true
  | _ => false

/-- `_mk_min(slides)` of `_normalize_ir`:
`{"version": 1, "meta": {}, "theme": {}, "slides": slides}`. -/
def mkMin (slides : Val) : Val :=
  .vDict [("version", .vInt 1), ("meta", .vDict []), ("theme", .vDict []),
    ("slides", slides)]

/-- The synthetic slide `{"id": "auto_1", "background": "#FFFFFF",
"components": ir}` wrapping a bare component array. -/
def autoWrapSlide (xs : List Val) : Val :=
  .vDict [("id", .vStr "auto_1"), ("background", .vStr "#FFFFFF"),
    ("components", .vList xs)]

/-- The slide synthesized for a dict root that has `components` but no
`slides` (the `components` key is present in that branch, so the final
`getD` default is immaterial). -/
def slideFromDict (d : List (String × Val)) : Val :=
  .vDict [("id", getD d "id" (.vStr "auto_1")),
    ("background", getD d "background" (.vStr "#FFFFFF")),
    ("layout", getD d "layout" .vNone),
    ("components", getD d "components" .vNone)]

/-- `_normalize_ir(ir)` from `render.py`.  A list root is reshaped into
the canonical dict (wrapping bare component arrays into one synthetic
slide); a dict root receives `setdefault`s for `version`, `meta`, `theme`
and a synthesized `slides`; any other root raises `TypeError`. -/
def normalize_ir : Val → Except String Val
  | .vList xs =>
    (match xs with
      | [] => .ok (mkMin (.vList [autoWrapSlide xs]))
      | x0 :: _ =>
        if xs.all Val.isDict then
          match x0 with
          | .vDict d0 =>
            if hasKey d0 "tool" then .ok (mkMin (.vList [autoWrapSlide xs]))
            else if hasKey d0 "components" then .ok (mkMin (.vList xs))
            else .ok (mkMin (.vList [autoWrapSlide xs]))
          | _ => .ok (mkMin (.vList [autoWrapSlide xs]))
        else .ok (mkMin (.vList [autoWrapSlide xs])))
  | .vDict d =>
    let d1 := setdefault d "version" (.vInt 1)
    let d2 := setdefault d1 "meta" (.vDict [])
    let d3 := setdefault d2 "theme" (.vDict [])
    let d4 :=
      if hasKey d3 "slides" then d3
      else if hasKey d3 "components" then
        d3 ++ [("slides", .vList [slideFromDict d3])]
      else d3 ++ [("slides", .vList [])]
    .ok (.vDict d4)
  | _ => .error "IR must be dict or list."

/-! Basic lemmas about the partitioner. -/

theorem heightsLoop_sum (ws : List ℚ) (total : ℚ) (n : ℕ)
    (usable g : ℤ) (hne : ws ≠ []) :
    ∀ rem : ℤ, (heightsLoop ws total n usable g rem).sum
      + g * ((ws.length : ℤ) - 1) = rem := by
  induction ws with
  | nil => exact absurd rfl hne
  | cons w rest ih =>
    intro rem
    cases rest with
    | nil => simp [heightsLoop]
    | cons w' rest' =>
      have h' := ih (by simp)
        (rem - pyRound ((usable : ℚ) * fracOf w total n) - g)
      simp only [heightsLoop, List.sum_cons, List.length_cons] at h' ⊢
      push_cast at h' ⊢
      linarith

theorem childHeights_sum (ws : List ℚ) (h gap : ℤ) (hne : ws ≠ []) :
    (childHeights ws h gap).sum
      + localGap h gap ws.length * ((ws.length : ℤ) - 1) = h :=
  heightsLoop_sum _ _ _ _ _ hne _

/-- Sum of a list of nonnegative rationals, restricted to its positive
elements, equals the full sum. -/
theorem filter_pos_sum (ws : List ℚ) (hw : ∀ w ∈ ws, 0 ≤ w) :
    (ws.filter (fun w => 0 < w)).sum = ws.sum := by
  induction ws with
  | nil => rfl
  | cons a l ih =>
    have ha := hw a (by simp)
    have hl := ih (fun w hwl => hw w (List.mem_cons_of_mem _ hwl))
    by_cases hpos : 0 < a
    · simp [List.filter_cons, hpos, hl]
    · have : a = 0 := le_antisymm (not_lt.mp hpos) ha
      simp [List.filter_cons, hpos, hl, this]

theorem totalWeight_eq_sum (ws : List ℚ) (n : ℕ)
    (hw : ∀ w ∈ ws, 0 ≤ w) (hs : 0 < ws.sum) :
    totalWeight ws n = ws.sum := by
  unfold totalWeight
  rw [filter_pos_sum ws hw]
  simp [ne_of_gt hs]

theorem heightsLoop_get (ws : List ℚ) (total : ℚ) (n : ℕ)
    (usable g : ℤ) (i : ℕ) (hi : i < ws.length - 1) :
    ∀ rem : ℤ, (heightsLoop ws total n usable g rem)[i]! =
      pyRound ((usable : ℚ) * fracOf (ws[i]!) total n) := by
  induction ws generalizing i with
  | nil => simp at hi
  | cons w rest ih =>
    intro rem
    cases rest with
    | nil => simp at hi
    | cons w' rest' =>
      cases i with
      | zero => simp [heightsLoop]
      | succ j =>
        have hj : j < (w' :: rest').length - 1 := by
          simp only [List.length_cons] at hi ⊢
          omega
        have := ih j hj (rem - pyRound ((usable : ℚ) * fracOf w total n) - g)
        simpa [heightsLoop, List.getElem!_cons_succ] using this

theorem totalWeight_pos (ws : List ℚ) (hne : ws ≠ []) :
    0 < totalWeight ws ws.length := by
  unfold totalWeight
  have hnn : 0 ≤ (ws.filter (fun w => 0 < w)).sum := by
    apply List.sum_nonneg
    intro a ha
    have := List.mem_filter.mp ha
    exact le_of_lt (of_decide_eq_true this.2)
  by_cases hz : (ws.filter (fun w => 0 < w)).sum = 0
  · simp only [hz, if_pos rfl]
    have : ws.length ≠ 0 := fun h => hne (List.length_eq_zero.mp h)
    exact_mod_cast Nat.pos_of_ne_zero this
  · simp only [if_neg hz]
    exact lt_of_le_of_ne hnn (Ne.symm hz)

theorem pyRound_zero : pyRound 0 = 0 := by norm_num [pyRound]

/-! ## Claim theorems for the Weighted Partitioner -/

/-- C1: drift-free weighted partitioning.  For every sibling weight list of
length `n ≥ 1` with all weights `≥ 0` (and positive total) and every
extent `h` whose usable extent `h - gap*(n-1)` is nonnegative, each of the
first `n-1` siblings is allocated `int(round(usable * weight_i /
total_weight))` and the sum of all sibling extents plus the inter-sibling
gaps equals `h` exactly.  Both the single-root recursion (`layoutNode`)
and the top-level root-list driver (`layoutRoots`) compute sibling heights
via `childHeights`, so this covers both forms. -/
theorem drift_free_partition (ws : List ℚ) (h gap : ℤ)
    (hne : ws ≠ []) (hw : ∀ w ∈ ws, 0 ≤ w) (hs : 0 < ws.sum)
    (hus : 0 ≤ h - gap * ((ws.length : ℤ) - 1)) :
    (∀ i : ℕ, i < ws.length - 1 →
        (childHeights ws h gap)[i]! =
          pyRound (((h - gap * ((ws.length : ℤ) - 1) : ℤ) : ℚ)
            * (ws[i]! / ws.sum)))
    ∧ (childHeights ws h gap).sum + gap * ((ws.length : ℤ) - 1) = h := by
  have husable : usableExtent h gap ws.length = h - gap * ((ws.length : ℤ) - 1) := by
    unfold usableExtent
    rw [if_neg (not_lt.mpr hus)]
  have hlg : localGap h gap ws.length = gap := by
    unfold localGap
    rw [if_neg (not_lt.mpr hus)]
  constructor
  · intro i hi
    have hilen : i < ws.length := lt_of_lt_of_le hi (Nat.sub_le _ _)
    have hwi : 0 ≤ ws[i]! := by
      rw [getElem!_pos ws i hilen]
      exact hw _ (List.getElem_mem hilen)
    have hfrac : fracOf (ws[i]!) (totalWeight ws ws.length) ws.length
        = ws[i]! / ws.sum := by
      rw [totalWeight_eq_sum ws ws.length hw hs]
      unfold fracOf
      rw [if_pos hs, max_eq_left hwi]
    have := heightsLoop_get ws (totalWeight ws ws.length) ws.length
      (usableExtent h gap ws.length) (localGap h gap ws.length) i hi h
    unfold childHeights
    rw [this, hfrac, husable]
  · have := childHeights_sum ws h gap hne
    rw [hlg] at this
    exact this

theorem drift_free_partition_witness :
    (childHeights [1, 2, 1] 100 2).sum + 2 * (((([1, 2, 1] : List ℚ).length : ℤ)) - 1) = 100 :=
  (drift_free_partition [1, 2, 1] 100 2 (by simp) (by norm_num)
    (by norm_num) (by norm_num)).2

/-- C6 counterexample: a sibling with weight `0` (`≤ 0`) is *not* given a
positive min-weight floor: with weights `[0, 1]`, extent `100` and gap
`0`, the first sibling's allocated extent is exactly `0` — the weight is
clamped to zero and contributes a zero share. -/
theorem zero_weight_share_cex : childHeights [0, 1] 100 0 = [0, 100] := by
  norm_num [childHeights, heightsLoop, totalWeight, usableExtent, localGap,
    fracOf, pyRound]

/-- C6 (amended): an omitted weight defaults to `1.0`; the divisor
`total_w` is always strictly positive (sum of the positive weights, with
fallback to `n`), so the allocation never divides by zero; and a weight
`≤ 0` is clamped to `0` and contributes a zero share to every non-last
sibling (rather than being raised to a positive floor). -/
theorem weight_default_and_clamp (ws : List ℚ) (h gap : ℤ) (i : ℕ)
    (nm : String) (cs : List DNode) (hne : ws ≠ []) :
    (DNode.mk nm none cs).getWeight = 1
    ∧ 0 < totalWeight ws ws.length
    ∧ (i < ws.length - 1 → ws[i]! ≤ 0 → (childHeights ws h gap)[i]! = 0) := by
  refine ⟨rfl, totalWeight_pos ws hne, fun hi hwle => ?_⟩
  have htpos := totalWeight_pos ws hne
  have hfrac : fracOf (ws[i]!) (totalWeight ws ws.length) ws.length = 0 := by
    unfold fracOf
    rw [if_pos htpos, max_eq_right hwle, zero_div]
  have := heightsLoop_get ws (totalWeight ws ws.length) ws.length
    (usableExtent h gap ws.length) (localGap h gap ws.length) i hi h
  unfold childHeights
  rw [this, hfrac, mul_zero, pyRound_zero]

theorem weight_default_and_clamp_witness :
    (childHeights [0, 1] 100 0)[0]! = 0 :=
  ((weight_default_and_clamp [0, 1] 100 0 0 "n" [] (by simp)).2.2
    (by norm_num) (by norm_num))

/-- C7: when the usable extent `h - gap*(n-1)` would be negative, the
level's local gap is suppressed to `0` and the full extent `h` is
distributed (the adjusted usable extent is `h` itself, nonnegative
whenever `h` is), so the sibling extents sum to exactly `h` with no gap
subtraction. -/
theorem gap_suppression (h gap : ℤ) (n : ℕ) (hh : 0 ≤ h)
    (hneg : h - gap * ((n : ℤ) - 1) < 0) :
    localGap h gap n = 0 ∧ usableExtent h gap n = h
    ∧ 0 ≤ usableExtent h gap n
    ∧ ∀ ws : List ℚ, ws.length = n → ws ≠ [] →
        (childHeights ws h gap).sum = h := by
  have hlg : localGap h gap n = 0 := by unfold localGap; rw [if_pos hneg]
  have hus : usableExtent h gap n = h := by unfold usableExtent; rw [if_pos hneg]
  refine ⟨hlg, hus, by rw [hus]; exact hh, fun ws hn hne => ?_⟩
  have := childHeights_sum ws h gap hne
  rw [hn, hlg, zero_mul, add_zero] at this
  exact this

theorem gap_suppression_witness :
    (childHeights [1, 1] 10 100).sum = 10 :=
  (gap_suppression 10 100 2 (by norm_num) (by norm_num)).2.2.2
    [1, 1] rfl (by simp)

/-- C10: content-band containment.  Every box recorded by the recursive
`layout` function is clamped into the vertical content band: its top is at
least `content_top` and its bottom `top + height` is at most
`content_top + content_h`, at every recursion depth. -/
theorem content_band_containment (cfg : LayoutCfg) (node : DNode)
    (col : ℕ) (x y w h : ℤ) (b : LBox)
    (hb : b ∈ layoutNode cfg node col x y w h) :
    cfg.contentTop ≤ b.y ∧ b.y + b.h ≤ cfg.contentTop + cfg.contentH := by
  refine layoutNode.induct cfg
    (fun node col x y w h => ∀ b ∈ layoutNode cfg node col x y w h,
      cfg.contentTop ≤ b.y ∧ b.y + b.h ≤ cfg.contentTop + cfg.contentH)
    (fun chs hs ccol cy lg => ∀ b ∈ layoutSibs cfg chs hs ccol cy lg,
      cfg.contentTop ≤ b.y ∧ b.y + b.h ≤ cfg.contentTop + cfg.contentH)
    ?_ ?_ ?_ ?_ ?_ node col x y w h b hb
  · intro col x y w h name weight b hb
    simp only [layoutNode, List.mem_singleton] at hb
    subst hb
    refine ⟨le_max_right _ _, ?_⟩
    have := min_le_right h (cfg.contentTop + cfg.contentH - max y cfg.contentTop)
    simp only
    omega
  · intro col x y w h y' h' name weight c0 cs chs ws hs lg ccol ih b hb
    simp only [layoutNode, List.mem_cons] at hb
    rcases hb with hb | hb
    · subst hb
      refine ⟨le_max_right _ _, ?_⟩
      have := min_le_right h (cfg.contentTop + cfg.contentH - max y cfg.contentTop)
      simp only
      omega
    · exact ih b hb
  · intro hs ccol cy lg b hb
    simp [layoutSibs] at hb
  · intro ch rest ccol cy lg b hb
    simp [layoutSibs] at hb
  · intro ch rest hh hrest ccol cy lg ih1 ih2 b hb
    simp only [layoutSibs, List.mem_append] at hb
    rcases hb with hb | hb
    · exact ih1 b hb
    · exact ih2 b hb

theorem content_band_containment_witness :
    (100 : ℤ) ≤ (⟨0, 5, 100, 7, 40⟩ : LBox).y
      ∧ (⟨0, 5, 100, 7, 40⟩ : LBox).y + (⟨0, 5, 100, 7, 40⟩ : LBox).h
          ≤ 100 + 40 :=
  content_band_containment ⟨100, 40, 1, 2, fun _ => 5, fun _ => 7⟩
    (.mk "root" none []) 0 5 90 7 60 ⟨0, 5, 100, 7, 40⟩
    (by simp [layoutNode])

/-! ## Claim theorems for the percent-to-EMU conversion -/

/-- C3 counterexample: the conversion used by geometry resolution is
truncation, not nearest-integer rounding.  At `pct = 50` and parent
extent `3` (a computation that is exact in floating point), the code
returns `int(3 * 0.5) = 1`, while `round(3 * 50 / 100) = round(1.5) = 2`:
the `left` field of `parse_geom` likewise differs from the claimed
rounding. -/
theorem pct_truncation_cex :
    pct_to_emu 50 3 = 1 ∧ pyRound ((3 : ℚ) * 50 / 100) = 2
      ∧ (parse_geom ⟨50, 0, 0, 0⟩ 3 3).left ≠ pyRound ((3 : ℚ) * 50 / 100) := by
  refine ⟨?_, ?_, ?_⟩ <;>
    norm_num [parse_geom, pct_to_emu, truncQ, pyRound]

/-- C3 (amended): for every percent value in `[0, 100]` and every
nonnegative parent extent, the conversion returns the *truncation*
`int(parent_extent * pct / 100)` — equal to the floor of the exact
product since the product is nonnegative — for each of the four fields
`left/top/width/height` produced by `parse_geom` from a percent box. -/
theorem pct_conversion_floor (pos : PctBox) (sw sh : ℚ)
    (hx0 : 0 ≤ pos.x) (hy0 : 0 ≤ pos.y) (hw0 : 0 ≤ pos.w) (hh0 : 0 ≤ pos.h)
    (_hx1 : pos.x ≤ 100) (_hy1 : pos.y ≤ 100) (_hw1 : pos.w ≤ 100)
    (_hh1 : pos.h ≤ 100) (hsw : 0 ≤ sw) (hsh : 0 ≤ sh) :
    (parse_geom pos sw sh).left = ⌊sw * (pos.x / 100)⌋
    ∧ (parse_geom pos sw sh).top = ⌊sh * (pos.y / 100)⌋
    ∧ (parse_geom pos sw sh).width = ⌊sw * (pos.w / 100)⌋
    ∧ (parse_geom pos sw sh).height = ⌊sh * (pos.h / 100)⌋ := by
  have key : ∀ p t : ℚ, 0 ≤ p → 0 ≤ t → pct_to_emu p t = ⌊t * (p / 100)⌋ := by
    intro p t hp ht
    unfold pct_to_emu truncQ
    rw [if_pos (by positivity)]
  exact ⟨key _ _ hx0 hsw, key _ _ hy0 hsh, key _ _ hw0 hsw, key _ _ hh0 hsh⟩

theorem pct_conversion_floor_witness :
    (parse_geom ⟨50, 25, 10, 100⟩ 200 80).left = ⌊(200 : ℚ) * (50 / 100)⌋ :=
  (pct_conversion_floor ⟨50, 25, 10, 100⟩ 200 80 (by norm_num) (by norm_num)
    (by norm_num) (by norm_num) (by norm_num) (by norm_num) (by norm_num)
    (by norm_num) (by norm_num) (by norm_num)).1

/-! Branch-computation lemmas for the router cascade. -/

theorem calcConn_rule1_fwd (f t : NodeBox) (m : ℚ)
    (h1 : |t.y + t.h / 2 - (f.y + f.h / 2)| < (f.h + t.h) / 4)
    (h2 : f.x + f.w ≤ t.x) :
    calcConn f t m =
      ⟨(f.x + f.w + m, f.y + f.h / 2), (t.x - m, t.y + t.h / 2),
        (3, 1), .straight⟩ := by
  simp only [calcConn]
  rw [if_pos ⟨h1, Or.inl h2⟩, if_pos h2]

theorem calcConn_rule1_bwd (f t : NodeBox) (m : ℚ)
    (h1 : |t.y + t.h / 2 - (f.y + f.h / 2)| < (f.h + t.h) / 4)
    (h2 : t.x + t.w ≤ f.x) (h3 : ¬ (f.x + f.w ≤ t.x)) :
    calcConn f t m =
      ⟨(f.x - m, f.y + f.h / 2), (t.x + t.w + m, t.y + t.h / 2),
        (1, 3), .straight⟩ := by
  simp only [calcConn]
  rw [if_pos ⟨h1, Or.inr h2⟩, if_neg h3]

theorem calcConn_rule2_fwd (f t : NodeBox) (m : ℚ)
    (h0 : ¬ (|t.y + t.h / 2 - (f.y + f.h / 2)| < (f.h + t.h) / 4
      ∧ (f.x + f.w ≤ t.x ∨ t.x + t.w ≤ f.x)))
    (h1 : |t.x + t.w / 2 - (f.x + f.w / 2)| < (f.w + t.w) / 4)
    (h2 : f.y + f.h ≤ t.y) :
    calcConn f t m =
      ⟨(f.x + f.w / 2, f.y + f.h + m), (t.x + t.w / 2, t.y - m),
        (2, 0), .straight⟩ := by
  simp only [calcConn]
  rw [if_neg h0, if_pos ⟨h1, Or.inl h2⟩, if_pos h2]

theorem calcConn_rule2_bwd (f t : NodeBox) (m : ℚ)
    (h0 : ¬ (|t.y + t.h / 2 - (f.y + f.h / 2)| < (f.h + t.h) / 4
      ∧ (f.x + f.w ≤ t.x ∨ t.x + t.w ≤ f.x)))
    (h1 : |t.x + t.w / 2 - (f.x + f.w / 2)| < (f.w + t.w) / 4)
    (h2 : t.y + t.h ≤ f.y) (h3 : ¬ (f.y + f.h ≤ t.y)) :
    calcConn f t m =
      ⟨(f.x + f.w / 2, f.y - m), (t.x + t.w / 2, t.y + t.h + m),
        (0, 2), .straight⟩ := by
  simp only [calcConn]
  rw [if_neg h0, if_pos ⟨h1, Or.inr h2⟩, if_neg h3]

theorem calcConn_straight_cases (f t : NodeBox) (m : ℚ)
    (hst : (calcConn f t m).style = .straight) :
    (|t.y + t.h / 2 - (f.y + f.h / 2)| < (f.h + t.h) / 4
      ∧ (f.x + f.w ≤ t.x ∨ t.x + t.w ≤ f.x))
    ∨ (¬ (|t.y + t.h / 2 - (f.y + f.h / 2)| < (f.h + t.h) / 4
          ∧ (f.x + f.w ≤ t.x ∨ t.x + t.w ≤ f.x))
        ∧ (|t.x + t.w / 2 - (f.x + f.w / 2)| < (f.w + t.w) / 4
          ∧ (f.y + f.h ≤ t.y ∨ t.y + t.h ≤ f.y))) := by
  simp only [calcConn] at hst
  split_ifs at hst with h1 h2 h3 h4 h5 h6 <;>
    first
      | exact Or.inl h1
      | exact Or.inr ⟨h1, h3⟩

/-- C4: the router is symmetric under swapping the two boxes in the
side-separated (straight) cases.  If `calcConn f t` classifies the pair as
straight (rule 1 or rule 2) and both boxes have positive extent, then
`calcConn t f` is also straight, with the mirrored site pair and the
start/end points exchanged. -/
theorem conn_swap_symmetry (f t : NodeBox) (m : ℚ)
    (hfw : 0 < f.w) (hfh : 0 < f.h) (htw : 0 < t.w) (hth : 0 < t.h)
    (hst : (calcConn f t m).style = .straight) :
    (calcConn t f m).style = .straight
    ∧ (calcConn t f m).sites
        = ((calcConn f t m).sites.2, (calcConn f t m).sites.1)
    ∧ (calcConn t f m).startP = (calcConn f t m).endP
    ∧ (calcConn t f m).endP = (calcConn f t m).startP := by
  rcases calcConn_straight_cases f t m hst with ⟨h1, hsep⟩ | ⟨hnc1, h1, hsep⟩
  · have h1' : |f.y + f.h / 2 - (t.y + t.h / 2)| < (t.h + f.h) / 4 := by
      rw [abs_sub_comm]; linarith
    rcases hsep with h2 | h2
    · have hnot : ¬ (t.x + t.w ≤ f.x) := by linarith
      rw [calcConn_rule1_fwd f t m h1 h2, calcConn_rule1_bwd t f m h1' h2 hnot]
      exact ⟨rfl, rfl, rfl, rfl⟩
    · have hnot : ¬ (f.x + f.w ≤ t.x) := by linarith
      rw [calcConn_rule1_bwd f t m h1 h2 hnot, calcConn_rule1_fwd t f m h1' h2]
      exact ⟨rfl, rfl, rfl, rfl⟩
  · have h1' : |f.x + f.w / 2 - (t.x + t.w / 2)| < (t.w + f.w) / 4 := by
      rw [abs_sub_comm]; linarith
    have hnc1' : ¬ (|f.y + f.h / 2 - (t.y + t.h / 2)| < (t.h + f.h) / 4
        ∧ (t.x + t.w ≤ f.x ∨ f.x + f.w ≤ t.x)) := by
      intro hc
      refine hnc1 ⟨?_, hc.2.symm⟩
      rw [abs_sub_comm]
      linarith [hc.1]
    rcases hsep with h2 | h2
    · have hnot : ¬ (t.y + t.h ≤ f.y) := by linarith
      rw [calcConn_rule2_fwd f t m hnc1 h1 h2,
        calcConn_rule2_bwd t f m hnc1' h1' h2 hnot]
      exact ⟨rfl, rfl, rfl, rfl⟩
    · have hnot : ¬ (f.y + f.h ≤ t.y) := by linarith
      rw [calcConn_rule2_bwd f t m hnc1 h1 h2 hnot,
        calcConn_rule2_fwd t f m hnc1' h1' h2]
      exact ⟨rfl, rfl, rfl, rfl⟩

theorem conn_swap_symmetry_witness :
    (calcConn ⟨20, 0, 10, 10⟩ ⟨0, 0, 10, 10⟩ 0).style = .straight
    ∧ (calcConn ⟨20, 0, 10, 10⟩ ⟨0, 0, 10, 10⟩ 0).sites
        = ((calcConn ⟨0, 0, 10, 10⟩ ⟨20, 0, 10, 10⟩ 0).sites.2,
           (calcConn ⟨0, 0, 10, 10⟩ ⟨20, 0, 10, 10⟩ 0).sites.1)
    ∧ (calcConn ⟨20, 0, 10, 10⟩ ⟨0, 0, 10, 10⟩ 0).startP
        = (calcConn ⟨0, 0, 10, 10⟩ ⟨20, 0, 10, 10⟩ 0).endP
    ∧ (calcConn ⟨20, 0, 10, 10⟩ ⟨0, 0, 10, 10⟩ 0).endP
        = (calcConn ⟨0, 0, 10, 10⟩ ⟨20, 0, 10, 10⟩ 0).startP :=
  conn_swap_symmetry ⟨0, 0, 10, 10⟩ ⟨20, 0, 10, 10⟩ 0 (by norm_num)
    (by norm_num) (by norm_num) (by norm_num)
    (by rw [calcConn_rule1_fwd] <;> norm_num [abs_le'])

/-- C5: two boxes with coinciding centers (full overlap) are always routed
as an elbow connector between the two centers, never straight. -/
theorem same_center_elbow (f t : NodeBox) (m : ℚ)
    (hcx : f.x + f.w / 2 = t.x + t.w / 2)
    (hcy : f.y + f.h / 2 = t.y + t.h / 2)
    (hfw : 0 < f.w) (hfh : 0 < f.h) (htw : 0 < t.w) (hth : 0 < t.h) :
    (calcConn f t m).style = .elbow
    ∧ (calcConn f t m).startP = (f.x + f.w / 2, f.y + f.h / 2)
    ∧ (calcConn f t m).endP = (t.x + t.w / 2, t.y + t.h / 2) := by
  have hfr : ¬ (f.x + f.w ≤ t.x) := by intro hc; linarith
  have htr : ¬ (t.x + t.w ≤ f.x) := by intro hc; linarith
  have hfb : ¬ (f.y + f.h ≤ t.y) := by intro hc; linarith
  have htb : ¬ (t.y + t.h ≤ f.y) := by intro hc; linarith
  have ex : t.x + t.w / 2 - (f.x + f.w / 2) = 0 := by linarith
  have ey : t.y + t.h / 2 - (f.y + f.h / 2) = 0 := by linarith
  simp only [calcConn]
  rw [if_neg (fun hc => hc.2.elim hfr htr),
    if_neg (fun hc => hc.2.elim hfb htb),
    if_pos (by rw [ex, ey]),
    if_neg (by rw [hcx]; exact lt_irrefl _)]
  exact ⟨rfl, rfl, rfl⟩

theorem same_center_elbow_witness :
    (calcConn ⟨0, 0, 10, 6⟩ ⟨2, 1, 6, 4⟩ 0).style = .elbow
    ∧ (calcConn ⟨0, 0, 10, 6⟩ ⟨2, 1, 6, 4⟩ 0).startP = (0 + 10 / 2, 0 + 6 / 2)
    ∧ (calcConn ⟨0, 0, 10, 6⟩ ⟨2, 1, 6, 4⟩ 0).endP = (2 + 6 / 2, 1 + 4 / 2) :=
  same_center_elbow ⟨0, 0, 10, 6⟩ ⟨2, 1, 6, 4⟩ 0 (by norm_num) (by norm_num)
    (by norm_num) (by norm_num) (by norm_num) (by norm_num)

/-! ## Claim theorems for the orchestrator -/

/-- C9: auto-title injection.  For a slide that declares a (truthy) title
and whose component list contains no component with the reserved tool name
`slide_title`, exactly one synthesized component with tool `slide_title`
and z-index `-1000` is prepended; a slide already containing a
`slide_title` component has its component list left unmodified. -/
theorem title_injection (t : String) (components : List Comp)
    (ht : t ≠ "") :
    (components.any (fun c => decide (c.tool = some "slide_title")) = false →
        injectTitle (some t) components = autoTitleComp :: components
        ∧ autoTitleComp.tool = some "slide_title"
        ∧ autoTitleComp.zIndex = -1000)
    ∧ (components.any (fun c => decide (c.tool = some "slide_title")) = true →
        injectTitle (some t) components = components) := by
  constructor
  · intro hno
    refine ⟨?_, rfl, rfl⟩
    simp only [injectTitle]
    rw [if_neg ht, if_neg (by simp [hno])]
  · intro hyes
    simp only [injectTitle]
    rw [if_neg ht, if_pos hyes]

theorem title_injection_witness :
    injectTitle (some "Q1 Results") [] = [autoTitleComp]
    ∧ autoTitleComp.tool = some "slide_title"
    ∧ autoTitleComp.zIndex = -1000 :=
  (title_injection "Q1 Results" [] (by decide)).1 (by decide)

/-- A component whose validation failure has been observed is never
dispatched: it cannot occur in the dispatch trace of any continuation of
the loop. -/
theorem processLoop_not_rendered (slideIdx : ℕ) (l : List Comp) (c : Comp)
    (hcs : c.schemaFound = true) (hcv : c.validates = false) :
    ∀ (i : ℕ) (reg : List (String × String)) (rnd : List Comp),
      c ∉ rnd → c ∉ (processLoop slideIdx l i reg rnd).rendered := by
  induction l with
  | nil =>
    intro i reg rnd hr
    simpa [processLoop] using hr
  | cons d rest ih =>
    intro i reg rnd hr
    have hnd : ∀ hds : d.schemaFound ≠ c.schemaFound ∨ d.validates ≠ c.validates,
        c ∉ rnd ++ [d] := by
      intro hds
      simp only [List.mem_append, List.mem_singleton]
      rintro (hc | hc)
      · exact hr hc
      · subst hc
        rcases hds with hds | hds <;> exact hds rfl
    simp only [processLoop]
    split_ifs with h1 h2 h3 h4 h5 h6 h7 <;>
      apply ih <;>
      first
        | exact hr
        | exact hnd (Or.inr (by rw [h3, hcv]; simp))
        | exact hnd (Or.inl (by
            simp only [Bool.not_eq_true] at h2
            rw [h2, hcs]
            simp))

/-- Skipping a validation-failing component: the loop's outcome on
`bad :: ys` equals its outcome on `ys` with the component index advanced,
leaving the registry and dispatch trace untouched. -/
theorem processLoop_skip (slideIdx : ℕ) (bad : Comp) (ys : List Comp)
    (j : ℕ) (reg : List (String × String)) (rnd : List Comp)
    (hbs : bad.schemaFound = true) (hbv : bad.validates = false) :
    processLoop slideIdx (bad :: ys) j reg rnd
      = processLoop slideIdx ys (j + 1) reg rnd := by
  simp [processLoop, hbs, hbv]

/-- C2: per-component weak failure.  A component whose schema validation
raises is skipped — the loop continues on the remaining components with
the registry and dispatch trace unchanged (only the component index
advances), and the failing component is never dispatched — and in the
end-to-end scenario of one valid component (z-index 1) and one
validation-failing component (z-index 0), the slide's registry contains
exactly one entry, keyed by the valid component's (defaulted) id. -/
theorem per_component_weak_failure (slideIdx : ℕ) (bad : Comp)
    (ys : List Comp) (j : ℕ) (reg : List (String × String))
    (rnd : List Comp) (hbs : bad.schemaFound = true)
    (hbv : bad.validates = false) (hbr : bad ∉ rnd) :
    processLoop slideIdx (bad :: ys) j reg rnd
      = processLoop slideIdx ys (j + 1) reg rnd
    ∧ bad ∉ (processLoop slideIdx (bad :: ys) j reg rnd).rendered
    ∧ (render_slide 1 none [validComp, brokenComp]).registry
        = [("valid_1_2", "valid")] :=
  ⟨processLoop_skip slideIdx bad ys j reg rnd hbs hbv,
    processLoop_not_rendered slideIdx (bad :: ys) bad hbs hbv j reg rnd hbr,
    by decide⟩

theorem per_component_weak_failure_witness :
    processLoop 1 (brokenComp :: [validComp]) 1 [] []
      = processLoop 1 [validComp] 2 [] []
    ∧ brokenComp ∉ (processLoop 1 (brokenComp :: [validComp]) 1 [] []).rendered
    ∧ (render_slide 1 none [validComp, brokenComp]).registry
        = [("valid_1_2", "valid")] :=
  per_component_weak_failure 1 brokenComp [validComp] 1 [] []
    (by decide) (by decide) (by simp)

/-! Association-list lemmas for the normalizer. -/

theorem lookupKey_append_of_hasKey (d l : List (String × Val)) (k : String)
    (hk : hasKey d k = true) :
    lookupKey (d ++ l) k = lookupKey d k := by
  induction d with
  | nil => simp [hasKey, lookupKey] at hk
  | cons e rest ih =>
    by_cases he : e.1 = k
    · simp [lookupKey, he]
    · have hk' : hasKey rest k = true := by
        simpa [hasKey, lookupKey, he] using hk
      simp [lookupKey, he, ih hk']

theorem hasKey_append_singleton (d : List (String × Val)) (k k2 : String)
    (v : Val) (hk : hasKey (d ++ [(k2, v)]) k = true) :
    hasKey d k = true ∨ k = k2 := by
  induction d with
  | nil =>
    right
    by_cases he : k2 = k
    · exact he.symm
    · simp [hasKey, lookupKey, he] at hk
  | cons e rest ih =>
    by_cases he : e.1 = k
    · left
      simp [hasKey, lookupKey, he]
    · have := ih (by simpa [hasKey, lookupKey, he] using hk)
      rcases this with h | h
      · left
        simpa [hasKey, lookupKey, he] using h
      · right
        exact h

theorem hasKey_append_left (d l : List (String × Val)) (k : String)
    (hk : hasKey d k = true) : hasKey (d ++ l) k = true := by
  rw [hasKey, lookupKey_append_of_hasKey d l k hk]
  exact hk

theorem lookupKey_setdefault (d : List (String × Val)) (k k2 : String)
    (v : Val) (hk : hasKey d k = true) :
    lookupKey (setdefault d k2 v) k = lookupKey d k := by
  unfold setdefault
  split_ifs with h
  · rfl
  · exact lookupKey_append_of_hasKey d _ k hk

theorem hasKey_setdefault_of (d : List (String × Val)) (k k2 : String)
    (v : Val) (hk : hasKey d k = true) :
    hasKey (setdefault d k2 v) k = true := by
  rw [hasKey, lookupKey_setdefault d k k2 v hk]
  exact hk

theorem hasKey_append_singleton_self (d : List (String × Val)) (k : String)
    (v : Val) : hasKey (d ++ [(k, v)]) k = true := by
  induction d with
  | nil => simp [hasKey, lookupKey]
  | cons e rest ih =>
    by_cases he : e.1 = k
    · simp [hasKey, lookupKey, he]
    · simpa [hasKey, lookupKey, he] using ih

theorem hasKey_setdefault_self (d : List (String × Val)) (k : String)
    (v : Val) : hasKey (setdefault d k v) k = true := by
  unfold setdefault
  split_ifs with h
  · exact h
  · exact hasKey_append_singleton_self d k v

theorem hasKey_setdefault_cases (d : List (String × Val)) (k k2 : String)
    (v : Val) (hk : hasKey (setdefault d k2 v) k = true) :
    hasKey d k = true ∨ k = k2 := by
  unfold setdefault at hk
  split_ifs at hk with h
  · exact Or.inl hk
  · exact hasKey_append_singleton d k k2 v hk

theorem norm_list_exists (xs : List Val) :
    ∃ kvs, normalize_ir (.vList xs) = .ok (.vDict kvs)
      ∧ hasKey kvs "version" = true ∧ hasKey kvs "meta" = true
      ∧ hasKey kvs "theme" = true ∧ hasKey kvs "slides" = true := by
  cases xs with
  | nil => exact ⟨_, rfl, by simp [mkMin, hasKey, lookupKey]⟩
  | cons x0 rest =>
    cases x0 <;> simp only [normalize_ir] <;> split_ifs <;>
      exact ⟨_, rfl, by simp [mkMin, hasKey, lookupKey]⟩

theorem norm_dict_exists (d : List (String × Val)) :
    ∃ kvs, normalize_ir (.vDict d) = .ok (.vDict kvs)
      ∧ (∀ k, hasKey d k = true → lookupKey kvs k = lookupKey d k)
      ∧ (∀ k, hasKey kvs k = true → hasKey d k = true ∨ k = "version"
          ∨ k = "meta" ∨ k = "theme" ∨ k = "slides")
      ∧ hasKey kvs "version" = true ∧ hasKey kvs "meta" = true
      ∧ hasKey kvs "theme" = true ∧ hasKey kvs "slides" = true := by
  simp only [normalize_ir]
  refine ⟨_, rfl, ?_, ?_, ?_, ?_, ?_, ?_⟩
  all_goals
    set d1 := setdefault d "version" (.vInt 1) with hd1
    set d2 := setdefault d1 "meta" (.vDict []) with hd2
    set d3 := setdefault d2 "theme" (.vDict []) with hd3
  · -- present keys keep their values
    intro k hk
    have hk1 : hasKey d1 k = true := hasKey_setdefault_of d k _ _ hk
    have hk2 : hasKey d2 k = true := hasKey_setdefault_of d1 k _ _ hk1
    have hk3 : hasKey d3 k = true := hasKey_setdefault_of d2 k _ _ hk2
    have hl3 : lookupKey d3 k = lookupKey d k := by
      rw [hd3, lookupKey_setdefault d2 k _ _ hk2,
        hd2, lookupKey_setdefault d1 k _ _ hk1,
        hd1, lookupKey_setdefault d k _ _ hk]
    split_ifs with hs hc
    · exact hl3
    · rw [lookupKey_append_of_hasKey d3 _ k hk3]
      exact hl3
    · rw [lookupKey_append_of_hasKey d3 _ k hk3]
      exact hl3
  · -- only the four canonical keys are ever added
    intro k hk
    have step3 : hasKey d3 k = true →
        hasKey d k = true ∨ k = "version" ∨ k = "meta" ∨ k = "theme"
          ∨ k = "slides" := by
      intro h3
      rcases hasKey_setdefault_cases d2 k _ _ h3 with h2 | h2
      · rcases hasKey_setdefault_cases d1 k _ _ h2 with h1 | h1
        · rcases hasKey_setdefault_cases d k _ _ h1 with h0 | h0
          · exact Or.inl h0
          · exact Or.inr (Or.inl h0)
        · exact Or.inr (Or.inr (Or.inl h1))
      · exact Or.inr (Or.inr (Or.inr (Or.inl h2)))
    split_ifs at hk with hs hc
    · exact step3 hk
    · rcases hasKey_append_singleton d3 k _ _ hk with h3 | h3
      · exact step3 h3
      · exact Or.inr (Or.inr (Or.inr (Or.inr h3)))
    · rcases hasKey_append_singleton d3 k _ _ hk with h3 | h3
      · exact step3 h3
      · exact Or.inr (Or.inr (Or.inr (Or.inr h3)))
  · -- version present
    have h1 : hasKey d1 "version" = true := hasKey_setdefault_self d _ _
    have h3 : hasKey d3 "version" = true :=
      hasKey_setdefault_of d2 _ _ _ (hasKey_setdefault_of d1 _ _ _ h1)
    split_ifs with hs hc
    · exact h3
    · exact hasKey_append_left d3 _ _ h3
    · exact hasKey_append_left d3 _ _ h3
  · -- meta present
    have h2 : hasKey d2 "meta" = true := hasKey_setdefault_self d1 _ _
    have h3 : hasKey d3 "meta" = true := hasKey_setdefault_of d2 _ _ _ h2
    split_ifs with hs hc
    · exact h3
    · exact hasKey_append_left d3 _ _ h3
    · exact hasKey_append_left d3 _ _ h3
  · -- theme present
    have h3 : hasKey d3 "theme" = true := hasKey_setdefault_self d2 _ _
    split_ifs with hs hc
    · exact h3
    · exact hasKey_append_left d3 _ _ h3
    · exact hasKey_append_left d3 _ _ h3
  · -- slides present
    split_ifs with hs hc
    · exact hs
    · exact hasKey_append_singleton_self d3 _ _
    · exact hasKey_append_singleton_self d3 _ _

/-- C8: IR normalization.  `_normalize_ir` raises if and only if the root
is neither a list nor a dict; every list or dict root yields a dict
containing all four top-level keys `version`, `meta`, `theme` and
`slides`; and a dict root has only its absent top-level keys filled
(every key present in the input keeps its value, and every key of the
output is either a key of the input or one of the four canonical
keys). -/
theorem normalizer_total_shape (v : Val) (d : List (String × Val))
    (k : String) :
    ((∃ s, normalize_ir v = .error s)
        ↔ v.isList = false ∧ v.isDict = false)
    ∧ (v.isList = true ∨ v.isDict = true →
        ∃ kvs, normalize_ir v = .ok (.vDict kvs)
          ∧ hasKey kvs "version" = true ∧ hasKey kvs "meta" = true
          ∧ hasKey kvs "theme" = true ∧ hasKey kvs "slides" = true)
    ∧ (v = .vDict d →
        ∃ kvs, normalize_ir v = .ok (.vDict kvs)
          ∧ (hasKey d k = true → lookupKey kvs k = lookupKey d k)
          ∧ (hasKey kvs k = true → hasKey d k = true ∨ k = "version"
              ∨ k = "meta" ∨ k = "theme" ∨ k = "slides")) := by
  refine ⟨⟨?_, ?_⟩, ?_, ?_⟩
  · rintro ⟨s, hs⟩
    cases v with
    | vList xs =>
      obtain ⟨kvs, hok, _⟩ := norm_list_exists xs
      rw [hok] at hs
      cases hs
    | vDict d0 =>
      obtain ⟨kvs, hok, _⟩ := norm_dict_exists d0
      rw [hok] at hs
      cases hs
    | vNone => exact ⟨rfl, rfl⟩
    | vBool b => exact ⟨rfl, rfl⟩
    | vInt n => exact ⟨rfl, rfl⟩
    | vStr s => exact ⟨rfl, rfl⟩
  · rintro ⟨hl, hd⟩
    cases v with
    | vList xs => simp [Val.isList] at hl
    | vDict d0 => simp [Val.isDict] at hd
    | vNone => exact ⟨_, rfl⟩
    | vBool b => exact ⟨_, rfl⟩
    | vInt n => exact ⟨_, rfl⟩
    | vStr s => exact ⟨_, rfl⟩
  · intro hv
    cases v with
    | vList xs => exact norm_list_exists xs
    | vDict d0 =>
      obtain ⟨kvs, hok, _, _, h1, h2, h3, h4⟩ := norm_dict_exists d0
      exact ⟨kvs, hok, h1, h2, h3, h4⟩
    | vNone => rcases hv with h | h <;> simp [Val.isList, Val.isDict] at h
    | vBool b => rcases hv with h | h <;> simp [Val.isList, Val.isDict] at h
    | vInt n => rcases hv with h | h <;> simp [Val.isList, Val.isDict] at h
    | vStr s => rcases hv with h | h <;> simp [Val.isList, Val.isDict] at h
  · rintro rfl
    obtain ⟨kvs, hok, hpres, hcase, _⟩ := norm_dict_exists d
    exact ⟨kvs, hok, hpres k, hcase k⟩

theorem normalizer_total_shape_witness :
    ((∃ s, normalize_ir (.vDict [("slides", .vList [])]) = .error s)
        ↔ (Val.vDict [("slides", .vList [])]).isList = false
          ∧ (Val.vDict [("slides", .vList [])]).isDict = false)
    ∧ ((Val.vDict [("slides", .vList [])]).isList = true
        ∨ (Val.vDict [("slides", .vList [])]).isDict = true →
        ∃ kvs, normalize_ir (.vDict [("slides", .vList [])])
            = .ok (.vDict kvs)
          ∧ hasKey kvs "version" = true ∧ hasKey kvs "meta" = true
          ∧ hasKey kvs "theme" = true ∧ hasKey kvs "slides" = true)
    ∧ (Val.vDict [("slides", .vList [])]
          = .vDict [("slides", .vList [])] →
        ∃ kvs, normalize_ir (.vDict [("slides", .vList [])])
            = .ok (.vDict kvs)
          ∧ (hasKey [("slides", Val.vList [])] "slides" = true →
              lookupKey kvs "slides"
                = lookupKey [("slides", Val.vList [])] "slides")
          ∧ (hasKey kvs "slides" = true →
              hasKey [("slides", Val.vList [])] "slides" = true
                ∨ "slides" = "version" ∨ "slides" = "meta"
                ∨ "slides" = "theme" ∨ "slides" = "slides")) :=
  normalizer_total_shape (.vDict [("slides", .vList [])])
    [("slides", .vList [])] "slides"
